import Mathlib

/-!
# Verification of the Clipper-style model-serving control plane

The repository is a notebook driving a model-serving cluster through its
administrative client.  The control plane itself (Registry, Router,
Lifecycle Manager) is not part of the repository's sources; following the
specification document, it is modelled here from the spec's words.  The
notebook's own code (the deployed `predict` closure and the concrete
sequence of administrative calls) is embedded directly from the source.
-/

namespace Clipper

/-- Modelled from the spec: an Application record of the Registry
(name, declared input type, default output value, latency SLO). -/
structure Application where
  name : String
  inputType : String
  defaultOutput : String
  sloMicros : Int
deriving DecidableEq, Repr

/-- Modelled from the spec: a ModelVersion entry — version identifier,
opaque deployment-artifact reference, the synchronously recorded desired
replica count, the Lifecycle Manager's count of currently healthy
replicas, and the active flag routing consults. -/
structure ModelVersion where
  version : String
  artifact : Nat
  replicas : Nat
  healthy : Nat
  active : Bool
deriving DecidableEq, Repr

/-- Modelled from the spec: a Model — name, declared input type, whether an
explicit `set_active_version` call has been made (the spec's "routing
defaults to latest deployed only when no explicit active version has been
set"), and its ordered list of ModelVersion entries. -/
structure MLModel where
  name : String
  inputType : String
  explicitSet : Bool
  versions : List ModelVersion
deriving DecidableEq, Repr

/-- Modelled from the spec: the Registry state — applications, models, and
links (application name paired with the model name it routes to). -/
structure RegState where
  apps : List Application
  models : List MLModel
  links : List (String × String)
deriving DecidableEq, Repr

/-- Modelled from the spec: the caller-input error taxonomy of §7. -/
inductive RegError where
  | alreadyExists
  | invalidConfig
  | notFound
  | versionExists
  | typeMismatch
deriving DecidableEq, Repr

/-- The empty Registry. -/
def initState : RegState := ⟨[], [], []⟩

def findApp (s : RegState) (n : String) : Option Application :=
  s.apps.find? (fun a => a.name == n)

def findModel (s : RegState) (n : String) : Option MLModel :=
  s.models.find? (fun m => m.name == n)

def findVersion (m : MLModel) (v : String) : Option ModelVersion :=
  m.versions.find? (fun mv => mv.version == v)

def lookupLink (s : RegState) (a : String) : Option String :=
  (s.links.find? (fun p => p.1 == a)).map (fun p => p.2)

/-- Replace the model named `n` by `f` applied to it, leaving the rest of
the state alone. -/
def updModel (s : RegState) (n : String) (f : MLModel → MLModel) : RegState :=
  { s with models := s.models.map (fun x => if x.name == n then f x else x) }

/-- Modelled from the spec: `register_application(name, input_type,
default_output, slo)` — fails with `AlreadyExists` if name taken, with
`InvalidConfig` if slo ≤ 0, otherwise appends the new application. -/
def register_application (s : RegState) (name inputType defaultOutput : String)
    (slo : Int) : Except RegError RegState :=
  if (findApp s name).isSome then .error .alreadyExists
  else if slo ≤ 0 then .error .invalidConfig
  else .ok { s with apps := s.apps ++ [⟨name, inputType, defaultOutput, slo⟩] }

/-- Modelled from the spec: `deploy_model_version(model_name, version,
input_type, artifact)` — creates the Model on first use; `VersionExists`
if the (model, version) pair is present; `TypeMismatch` on input-type
conflict.  While no explicit `set_active_version` has been made the newly
deployed version becomes the active one (the spec's "routing defaults to
latest deployed"); after an explicit set the active pointer is kept.
A fresh deployment starts with one replica, healthy. -/
def deploy_model_version (s : RegState) (modelName version inputType : String)
    (artifact : Nat) : Except RegError RegState :=
  match findModel s modelName with
  | none =>
      .ok { s with models :=
        s.models ++ [⟨modelName, inputType, false, [⟨version, artifact, 1, 1, true⟩]⟩] }
  | some m =>
      if (findVersion m version).isSome then .error .versionExists
      else if m.inputType ≠ inputType then .error .typeMismatch
      else .ok (updModel s modelName (fun x =>
        if x.explicitSet then
          { x with versions := x.versions ++ [⟨version, artifact, 1, 1, false⟩] }
        else
          { x with versions :=
              x.versions.map (fun mv => { mv with active := false })
                ++ [⟨version, artifact, 1, 1, true⟩] }))

/-- Modelled from the spec: `link(app_name, model_name)` — `NotFound` if
either side is absent, `TypeMismatch` if input types differ; replaces any
existing link for the application atomically. -/
def link_model_to_app (s : RegState) (appName modelName : String) :
    Except RegError RegState :=
  match findApp s appName, findModel s modelName with
  | none, _ => .error .notFound
  | some _, none => .error .notFound
  | some a, some m =>
      if a.inputType ≠ m.inputType then .error .typeMismatch
      else .ok { s with links :=
        (s.links.filter (fun p => !(p.1 == appName))) ++ [(appName, modelName)] }

/-- Modelled from the spec: `set_active_version(model_name, version)` —
`NotFound` if the model or the version is absent; otherwise atomically
swaps the active pointer and records that an explicit choice was made. -/
def set_active_version (s : RegState) (modelName version : String) :
    Except RegError RegState :=
  match findModel s modelName with
  | none => .error .notFound
  | some m =>
      if (findVersion m version).isSome then
        .ok (updModel s modelName (fun x =>
          { x with explicitSet := true,
                   versions := x.versions.map
                     (fun mv => { mv with active := mv.version == version }) }))
      else .error .notFound

/-- Modelled from the spec: `set_replica_count(model_name, version, count)`
— `NotFound` if the pair is absent, `InvalidConfig` if count < 0; on
success the Registry record is updated synchronously to `count` (scaling
itself is asynchronous and only ever touches the healthy count). -/
def set_replica_count (s : RegState) (modelName version : String) (count : Int) :
    Except RegError RegState :=
  match findModel s modelName with
  | none => .error .notFound
  | some m =>
      if (findVersion m version).isSome then
        if count < 0 then .error .invalidConfig
        else .ok (updModel s modelName (fun x =>
          { x with versions := x.versions.map (fun mv =>
              if mv.version == version then { mv with replicas := count.toNat }
              else mv) }))
      else .error .notFound

/-- Modelled from the spec: the Lifecycle Manager's eventual convergence —
`scale` converges the healthy replica count of every version toward its
recorded desired count. -/
def converge (s : RegState) : RegState :=
  { s with models := s.models.map (fun m =>
      { m with versions := m.versions.map (fun mv =>
          { mv with healthy := mv.replicas }) }) }

/-- Modelled from the spec: an asynchronous scaling report — in-progress or
partially failed scaling only changes the healthy count of the targeted
version, never the Registry's recorded replica count. -/
def lifecycle_report (s : RegState) (modelName version : String) (actual : Nat) :
    RegState :=
  updModel s modelName (fun m =>
    { m with versions := m.versions.map (fun mv =>
        if mv.version == version then { mv with healthy := actual } else mv) })

/-- The ModelVersion entry routing resolves to: the one marked active. -/
def activeEntry (m : MLModel) : Option ModelVersion :=
  m.versions.find? (fun mv => mv.active)

/-- The identifier of the model's active version, if any. -/
def activeVersionId (s : RegState) (modelName : String) : Option String :=
  (findModel s modelName).bind (fun m => (activeEntry m).map (fun mv => mv.version))

/-- The recorded replica count of a (model, version) pair. -/
def getReplicas (s : RegState) (modelName version : String) : Option Nat :=
  (findModel s modelName).bind (fun m => (findVersion m version).map (fun mv => mv.replicas))

/-- The healthy replica count of a (model, version) pair. -/
def getHealthy (s : RegState) (modelName version : String) : Option Nat :=
  (findModel s modelName).bind (fun m => (findVersion m version).map (fun mv => mv.healthy))

/-- The deployment artifact of a (model, version) pair. -/
def getArtifact (s : RegState) (modelName version : String) : Option Nat :=
  (findModel s modelName).bind (fun m => (findVersion m version).map (fun mv => mv.artifact))

/-- Modelled from the spec: the Router's outcome for one request.  An
application name with no registered application has no endpoint at all
(§6: one path per application); a registered application whose resolution
fails yields its configured default output flagged as the default; a
successful resolution forwards to a healthy replica of the linked model's
active version. -/
inductive RouteResult where
  | unknownApp
  | fallback (output : String)
  | forwarded (modelName version : String) (artifact : Nat)
deriving DecidableEq, Repr

/-- Whether the Router answered with the default-flagged fallback. -/
def RouteResult.isFallback : RouteResult → Bool
  | .fallback _ => true
  | _ => false

/-- Modelled from the spec: the Router — look up the Application, its Link,
the linked Model's active ModelVersion; fall back to the application's
default output unless an active version with at least one healthy replica
exists. -/
def route (s : RegState) (appName : String) : RouteResult :=
  match findApp s appName with
  | none => .unknownApp
  | some a =>
      match lookupLink s appName with
      | none => .fallback a.defaultOutput
      | some mn =>
          match findModel s mn with
          | none => .fallback a.defaultOutput
          | some m =>
              match activeEntry m with
              | none => .fallback a.defaultOutput
              | some mv =>
                  if 1 ≤ mv.healthy then .forwarded mn mv.version mv.artifact
                  else .fallback a.defaultOutput

/-! ## The registry operations as a single step type -/

/-- One administrative operation on the Registry. -/
inductive RegOp where
  | regApp (name inputType defaultOutput : String) (slo : Int)
  | deploy (modelName version inputType : String) (artifact : Nat)
  | link (appName modelName : String)
  | setActive (modelName version : String)
  | setReplicas (modelName version : String) (count : Int)
deriving DecidableEq, Repr

/-- Apply one administrative operation. -/
def applyOp (s : RegState) : RegOp → Except RegError RegState
  | .regApp n t d slo => register_application s n t d slo
  | .deploy m v t a => deploy_model_version s m v t a
  | .link a m => link_model_to_app s a m
  | .setActive m v => set_active_version s m v
  | .setReplicas m v c => set_replica_count s m v c

/-- Run a list of operations, stopping at the first error. -/
def runOps (s : RegState) : List RegOp → Except RegError RegState
  | [] => .ok s
  | op :: rest =>
      match applyOp s op with
      | .ok s' => runOps s' rest
      | .error e => .error e

/-! ## The notebook's own code (from src) -/

/-- The deployed closure of the notebook, from the source:
`pred = model.predict(inputs); return [str(p) for p in pred]`.
The numeric prediction type and the decimal rendering `str` are
parameters; the closure maps the rendering over the model's prediction
array and returns strings only. -/
def predict {α β : Type} (str : α → String) (modelPredict : β → List α)
    (inputs : β) : List String :=
  (modelPredict inputs).map str

/-- The sequence of administrative calls the notebook makes, in cell order:
register "boston"; deploy tree-model v1; link boston→tree-model; deploy
forest-model v1; register "boston-new"; link boston-new→forest-model;
deploy forest-model v2; set_model_version forest-model "1";
set_num_replicas forest-model 10 version "1".  Artifacts 1, 2, 3 stand for
the pickled tree_v1, forest_v1, forest_v2 closures. -/
def notebookOps : List RegOp :=
  [ .regApp "boston" "doubles" "-1.0" 100000,
    .deploy "tree-model" "1" "doubles" 1,
    .link "boston" "tree-model",
    .deploy "forest-model" "1" "doubles" 2,
    .regApp "boston-new" "doubles" "-1.0" 100000,
    .link "boston-new" "forest-model",
    .deploy "forest-model" "2" "doubles" 3,
    .setActive "forest-model" "1",
    .setReplicas "forest-model" "1" 10 ]

/-- The input types an operation declares (registration and deployment
declare one; the other operations declare none). -/
def declaredTypes : RegOp → List String
  | .regApp _ t _ _ => [t]
  | .deploy _ _ t _ => [t]
  | _ => []

/-- Along a run, check that at every `link` operation the application's
registered input type equals the model's declared input type (so the
`TypeMismatch` branch is never taken), and that every operation
succeeds. -/
def linksTypeAligned (s : RegState) : List RegOp → Bool
  | [] => true
  | op :: rest =>
      let here : Bool :=
        match op with
        | .link a m =>
            match findApp s a, findModel s m with
            | some app, some mdl => app.inputType == mdl.inputType
            | _, _ => false
        | _ => true
      match applyOp s op with
      | .ok s' => here && linksTypeAligned s' rest
      | .error _ => false

/-! ## Well-formedness of the Registry -/

/-- A model is well formed: it has at least one version, version
identifiers are unique within it, and exactly one of its versions is
marked active. -/
def modelWF (m : MLModel) : Prop :=
  m.versions ≠ [] ∧ (m.versions.map (fun mv => mv.version)).Nodup ∧
    m.versions.countP (fun mv => mv.active) = 1

instance (m : MLModel) : Decidable (modelWF m) := by
  unfold modelWF; infer_instance

/-- The Registry invariant: application names are unique, model names are
unique, every model is well formed, and every application carries at most
one link. -/
def WF (s : RegState) : Prop :=
  (s.apps.map (fun a => a.name)).Nodup ∧
  (s.models.map (fun m => m.name)).Nodup ∧
  (∀ m ∈ s.models, modelWF m) ∧
  (s.links.map (fun p => p.1)).Nodup

instance (s : RegState) : Decidable (WF s) := by
  unfold WF; infer_instance

/-! ## Helper lemmas on keyed lists -/

theorem find?_key_map {α : Type} (key : α → String) (g : α → α)
    (hg : ∀ x, key (g x) = key x) (k : String) :
    ∀ l : List α,
      (l.map g).find? (fun x => key x == k) = (l.find? (fun x => key x == k)).map g := by
  intro l
  induction l with
  | nil => rfl
  | cons a t ih =>
      cases h : (key a == k) with
      | true => simp [List.find?_cons, hg, h]
      | false => simpa [List.find?_cons, hg, h] using ih

theorem find?_key_eq_of_mem {α : Type} (key : α → String) :
    ∀ l : List α, (l.map key).Nodup → ∀ x ∈ l,
      l.find? (fun y => key y == key x) = some x := by
  intro l
  induction l with
  | nil => intro _ x hx; cases hx
  | cons a t ih =>
      intro hn x hx
      rcases List.mem_cons.mp hx with rfl | hxt
      · simp [List.find?_cons]
      · have ha : key a ≠ key x := by
          intro hk
          have : key x ∈ t.map key := List.mem_map_of_mem key hxt
          rw [← hk] at this
          exact (List.nodup_cons.mp (by simpa using hn)).1 this
        have hb : (key a == key x) = false := by
          simpa [beq_iff_eq] using ha
        simp only [List.find?_cons, hb]
        exact ih (List.nodup_cons.mp (by simpa using hn)).2 x hxt

theorem countP_key_eq_one {α : Type} (key : α → String) (v : String) :
    ∀ l : List α, (l.map key).Nodup → (∃ x ∈ l, key x = v) →
      l.countP (fun x => key x == v) = 1 := by
  intro l
  induction l with
  | nil => rintro _ ⟨x, hx, _⟩; cases hx
  | cons a t ih =>
      intro hn hex
      have hn' : (∀ x ∈ t, key x ≠ key a) ∧ (t.map key).Nodup := by simpa using hn
      by_cases hav : key a = v
      · have hrest : t.countP (fun x => key x == v) = 0 := by
          apply List.countP_eq_zero.mpr
          intro x hx hb
          have hxv : key x = v := by simpa [beq_iff_eq] using hb
          exact hn'.1 x hx (hxv.trans hav.symm)
        simp [List.countP_cons, hav, hrest]
      · rcases hex with ⟨x, hx, hxv⟩
        rcases List.mem_cons.mp hx with rfl | hxt
        · exact absurd hxv hav
        · have : (key a == v) = false := by simpa [beq_iff_eq] using hav
          simp only [List.countP_cons, this]
          simpa using ih hn'.2 ⟨x, hxt, hxv⟩

theorem length_filter_key_le_one {α : Type} (key : α → String) (a : String) :
    ∀ l : List α, (l.map key).Nodup → (l.filter (fun x => key x == a)).length ≤ 1 := by
  intro l
  induction l with
  | nil => intro _; simp
  | cons b t ih =>
      intro hn
      have hn' : (∀ x ∈ t, key x ≠ key b) ∧ (t.map key).Nodup := by simpa using hn
      by_cases hba : key b = a
      · have hrest : t.filter (fun x => key x == a) = [] := by
          apply List.filter_eq_nil_iff.mpr
          intro x hx hb
          have hxa : key x = a := by simpa [beq_iff_eq] using hb
          exact hn'.1 x hx (hxa.trans hba.symm)
        simp [List.filter_cons, hba, hrest]
      · have : (key b == a) = false := by simpa [beq_iff_eq] using hba
        simp only [List.filter_cons, this]
        simpa using ih hn'.2

theorem nodup_append_singleton {α : Type} {l : List α} {a : α}
    (h : l.Nodup) (ha : a ∉ l) : (l ++ [a]).Nodup :=
  List.nodup_append.mpr ⟨h, List.nodup_singleton a, List.disjoint_singleton.mpr ha⟩

/-! ## Helper lemmas on the Registry model -/

theorem findModel_updModel (s : RegState) (n : String) (f : MLModel → MLModel)
    (hf : ∀ x, (f x).name = x.name) (k : String) :
    findModel (updModel s n f) k =
      (findModel s k).map (fun x => if x.name == n then f x else x) := by
  unfold findModel updModel
  exact find?_key_map (fun m => m.name) (fun x => if x.name == n then f x else x)
    (by intro x; dsimp only; split <;> simp [hf]) k s.models

theorem findApp_updModel (s : RegState) (n : String) (f : MLModel → MLModel)
    (k : String) : findApp (updModel s n f) k = findApp s k := rfl

theorem lookupLink_updModel (s : RegState) (n : String) (f : MLModel → MLModel)
    (k : String) : lookupLink (updModel s n f) k = lookupLink s k := rfl

theorem names_updModel (s : RegState) (n : String) (f : MLModel → MLModel)
    (hf : ∀ x, (f x).name = x.name) :
    (updModel s n f).models.map (fun m => m.name) = s.models.map (fun m => m.name) := by
  unfold updModel
  dsimp only
  rw [List.map_map]
  apply List.map_congr_left
  intro x _
  dsimp only [Function.comp]
  split <;> simp [hf]

theorem mem_updModel {s : RegState} {n : String} {f : MLModel → MLModel} {y : MLModel}
    (hy : y ∈ (updModel s n f).models) :
    ∃ x ∈ s.models, y = if x.name == n then f x else x := by
  rcases List.mem_map.mp hy with ⟨x, hx, hxy⟩
  exact ⟨x, hx, hxy.symm⟩

theorem updModel_updModel (s : RegState) (n : String) (f g : MLModel → MLModel)
    (hf : ∀ x, (f x).name = x.name) :
    updModel (updModel s n f) n g = updModel s n (fun x => g (f x)) := by
  unfold updModel
  dsimp only
  congr 1
  rw [List.map_map]
  apply List.map_congr_left
  intro x _
  dsimp only [Function.comp]
  by_cases hx : x.name = n
  · simp [hx, hf]
  · simp [hx]

theorem findVersion_map_key (g : ModelVersion → ModelVersion)
    (hg : ∀ mv, (g mv).version = mv.version) (vs : List ModelVersion) (v : String) :
    (vs.map g).find? (fun mv => mv.version == v) =
      (vs.find? (fun mv => mv.version == v)).map g :=
  find?_key_map (fun mv => mv.version) g hg v vs

/-- The active entry of a version list whose flags have just been set to
"equals `v`": it is the unique entry keyed `v`, flagged active. -/
theorem find?_active_setFlags (v : String) :
    ∀ vs : List ModelVersion, (vs.map (fun mv => mv.version)).Nodup →
      ∀ x ∈ vs, x.version = v →
      (vs.map (fun mv => { mv with active := mv.version == v })).find?
          (fun mv => mv.active) = some { x with active := true } := by
  intro vs
  induction vs with
  | nil => intro _ x hx; cases hx
  | cons a t ih =>
      intro hn x hx hxv
      have hn' : (∀ x ∈ t, x.version ≠ a.version) ∧
          (t.map (fun mv => mv.version)).Nodup := by simpa using hn
      by_cases hav : a.version = v
      · have hax : a = x := by
          rcases List.mem_cons.mp hx with rfl | hxt
          · rfl
          · exact absurd (hxv.trans hav.symm) (hn'.1 x hxt)
        subst hax
        simp [List.find?_cons, hav]
      · have hb : (a.version == v) = false := by simpa [beq_iff_eq] using hav
        have hxt : x ∈ t := by
          rcases List.mem_cons.mp hx with rfl | hxt
          · exact absurd hxv hav
          · exact hxt
        simp only [List.map_cons, List.find?_cons, hb]
        exact ih hn'.2 x hxt hxv

theorem findModel_converge (s : RegState) (k : String) :
    findModel (converge s) k = (findModel s k).map (fun m =>
      { m with versions := m.versions.map (fun mv => { mv with healthy := mv.replicas }) }) := by
  unfold findModel converge
  exact find?_key_map (fun m => m.name) (fun m =>
    { m with versions := m.versions.map (fun mv => { mv with healthy := mv.replicas }) })
    (fun x => rfl) k s.models

theorem findApp_some_name {s : RegState} {n : String} {a : Application}
    (h : findApp s n = some a) : (a.name == n) = true := by
  unfold findApp at h
  have h2 := List.find?_some h
  exact h2

theorem findModel_some_name {s : RegState} {n : String} {m0 : MLModel}
    (h : findModel s n = some m0) : (m0.name == n) = true := by
  unfold findModel at h
  have h2 := List.find?_some h
  exact h2

theorem findModel_mem {s : RegState} {n : String} {m0 : MLModel}
    (h : findModel s n = some m0) : m0 ∈ s.models := by
  unfold findModel at h
  exact List.mem_of_find?_eq_some h

theorem findVersion_some_key {m : MLModel} {v : String} {mv : ModelVersion}
    (h : findVersion m v = some mv) : (mv.version == v) = true := by
  unfold findVersion at h
  have h2 := List.find?_some h
  exact h2

theorem findVersion_mem {m : MLModel} {v : String} {mv : ModelVersion}
    (h : findVersion m v = some mv) : mv ∈ m.versions := by
  unfold findVersion at h
  exact List.mem_of_find?_eq_some h

/-- Updating every version of model `m` through a key-preserving transform
`g`: the model is still found under its name with its versions mapped, and
version lookup commutes with the transform. -/
theorem find_updVersions (s : RegState) (m : String)
    (g : ModelVersion → ModelVersion) (hg : ∀ mv, (g mv).version = mv.version)
    {m0 : MLModel} (hfm : findModel s m = some m0) (v : String) :
    findModel (updModel s m (fun x => { x with versions := x.versions.map g })) m =
      some ({ m0 with versions := m0.versions.map g }) ∧
    findVersion ({ m0 with versions := m0.versions.map g }) v =
      (findVersion m0 v).map g := by
  have hm0name := findModel_some_name hfm
  constructor
  · rw [findModel_updModel s m (fun x => { x with versions := x.versions.map g })
        (fun _ => rfl), hfm, Option.map_some', if_pos hm0name]
  · unfold findVersion
    dsimp only
    exact findVersion_map_key g hg m0.versions v

theorem find?_map_pred {α : Type} (g : α → α) (p : α → Bool)
    (hp : ∀ x, p (g x) = p x) :
    ∀ l : List α, (l.map g).find? p = (l.find? p).map g := by
  intro l
  induction l with
  | nil => rfl
  | cons a t ih =>
      cases h : p a with
      | true => simp [List.find?_cons, hp, h]
      | false => simpa [List.find?_cons, hp, h] using ih

theorem not_mem_key_of_find?_eq_none {α : Type} (key : α → String) {l : List α}
    {k : String} (h : l.find? (fun x => key x == k) = none) : k ∉ l.map key := by
  intro hmem
  rcases List.mem_map.mp hmem with ⟨x, hx, hk⟩
  exact (List.find?_eq_none.mp h x hx) (by simp [beq_iff_eq, hk])

theorem map_ne_nil {α β : Type} (f : α → β) {l : List α} (h : l ≠ []) :
    l.map f ≠ [] := by
  cases l with
  | nil => exact absurd rfl h
  | cons a t => simp

theorem map_version_map (g : ModelVersion → ModelVersion)
    (hg : ∀ mv, (g mv).version = mv.version) (vs : List ModelVersion) :
    (vs.map g).map (fun mv => mv.version) = vs.map (fun mv => mv.version) := by
  rw [List.map_map]
  exact List.map_congr_left (fun a _ => hg a)

theorem findModel_eq_of_mem {s : RegState}
    (hm : (s.models.map (fun m => m.name)).Nodup) {x : MLModel}
    (hx : x ∈ s.models) {k : String} (hk : (x.name == k) = true) :
    findModel s k = some x := by
  unfold findModel
  have hkx : k = x.name := (beq_iff_eq.mp hk).symm
  subst hkx
  exact find?_key_eq_of_mem (fun m => m.name) s.models hm x hx

/-! ## Preservation of the Registry invariant -/

theorem WF_register {s s' : RegState} {n t d : String} {slo : Int}
    (hwf : WF s) (h : register_application s n t d slo = .ok s') : WF s' := by
  unfold register_application at h
  by_cases h1 : (findApp s n).isSome = true
  · rw [if_pos h1] at h; simp at h
  · by_cases h2 : slo ≤ 0
    · rw [if_neg h1, if_pos h2] at h; simp at h
    · rw [if_neg h1, if_neg h2] at h
      have hs' := (Except.ok.injEq _ _).mp h
      subst hs'
      obtain ⟨ha, hm, hv, hl⟩ := hwf
      refine ⟨?_, hm, hv, hl⟩
      dsimp only
      rw [List.map_append]
      refine nodup_append_singleton ha ?_
      have hnone : findApp s n = none := by
        cases hf : findApp s n with
        | none => rfl
        | some x => rw [hf] at h1; exact absurd rfl h1
      unfold findApp at hnone
      simpa using not_mem_key_of_find?_eq_none (fun (a : Application) => a.name) hnone

theorem WF_deploy {s s' : RegState} {mn v t : String} {art : Nat}
    (hwf : WF s) (h : deploy_model_version s mn v t art = .ok s') : WF s' := by
  unfold deploy_model_version at h
  rcases hfm : findModel s mn with _ | m0
  · rw [hfm] at h
    have hs' := (Except.ok.injEq _ _).mp h
    subst hs'
    obtain ⟨ha, hm, hv, hl⟩ := hwf
    refine ⟨ha, ?_, ?_, hl⟩
    · dsimp only
      rw [List.map_append]
      refine nodup_append_singleton hm ?_
      unfold findModel at hfm
      simpa using not_mem_key_of_find?_eq_none (fun (m : MLModel) => m.name) hfm
    · intro y hy
      rcases List.mem_append.mp hy with h1 | h1
      · exact hv y h1
      · rcases List.mem_singleton.mp h1 with rfl
        refine ⟨by simp, by simp, by simp [List.countP_cons]⟩
  · rw [hfm] at h
    dsimp only at h
    by_cases hfv : (findVersion m0 v).isSome = true
    · rw [if_pos hfv] at h; simp at h
    · rw [if_neg hfv] at h
      by_cases ht : m0.inputType ≠ t
      · rw [if_pos ht] at h; simp at h
      · rw [if_neg ht] at h
        have hs' := (Except.ok.injEq _ _).mp h
        subst hs'
        obtain ⟨ha, hm, hv', hl⟩ := hwf
        have hname : ∀ x : MLModel,
            ((if x.explicitSet then
              { x with versions := x.versions ++ [⟨v, art, 1, 1, false⟩] }
            else
              { x with versions :=
                  x.versions.map (fun mv => { mv with active := false })
                    ++ [⟨v, art, 1, 1, true⟩] }) : MLModel).name = x.name := by
          intro x; split <;> rfl
        refine ⟨ha, by rw [names_updModel _ _ _ hname]; exact hm, ?_, hl⟩
        intro y hy
        rcases mem_updModel hy with ⟨x, hx, hxy⟩
        by_cases hxn : (x.name == mn) = true
        · have hx0 : findModel s mn = some x := findModel_eq_of_mem hm hx hxn
          rw [hfm] at hx0
          obtain rfl : m0 = x := (Option.some.injEq _ _).mp hx0
          obtain ⟨hne, hkeys, hcnt⟩ := hv' m0 hx
          have hvnone : findVersion m0 v = none := by
            cases hf : findVersion m0 v with
            | none => rfl
            | some x' => rw [hf] at hfv; exact absurd rfl hfv
          have hvnot : v ∉ m0.versions.map (fun mv => mv.version) := by
            unfold findVersion at hvnone
            exact not_mem_key_of_find?_eq_none (fun (mv : ModelVersion) => mv.version) hvnone
          rw [hxy, if_pos hxn]
          by_cases hex : m0.explicitSet
          · rw [if_pos hex]
            refine ⟨by simp, ?_, ?_⟩
            · dsimp only
              rw [List.map_append]
              exact nodup_append_singleton hkeys hvnot
            · dsimp only
              rw [List.countP_append, hcnt]
              simp [List.countP_cons]
          · rw [if_neg hex]
            refine ⟨by simp, ?_, ?_⟩
            · dsimp only
              rw [List.map_append,
                map_version_map (fun mv => { mv with active := false }) (fun _ => rfl)]
              exact nodup_append_singleton hkeys hvnot
            · dsimp only
              rw [List.countP_append, List.countP_map]
              have hz : m0.versions.countP ((fun mv => mv.active) ∘
                  (fun mv => { mv with active := false })) = 0 := by
                apply List.countP_eq_zero.mpr
                intro mv _
                simp
              rw [hz]
              simp [List.countP_cons]
        · rw [hxy, if_neg hxn]
          exact hv' x hx

theorem WF_link {s s' : RegState} {an mn : String}
    (hwf : WF s) (h : link_model_to_app s an mn = .ok s') : WF s' := by
  unfold link_model_to_app at h
  rcases hfa : findApp s an with _ | a0
  · rw [hfa] at h; simp at h
  rw [hfa] at h
  rcases hfm : findModel s mn with _ | m0
  · rw [hfm] at h; simp at h
  rw [hfm] at h
  dsimp only at h
  by_cases ht : a0.inputType ≠ m0.inputType
  · rw [if_pos ht] at h; simp at h
  · rw [if_neg ht] at h
    have hs' := (Except.ok.injEq _ _).mp h
    subst hs'
    obtain ⟨ha, hm, hv, hl⟩ := hwf
    refine ⟨ha, hm, hv, ?_⟩
    dsimp only
    rw [List.map_append]
    refine nodup_append_singleton ?_ ?_
    · exact List.Nodup.sublist
        (List.Sublist.map (fun p => p.1) (List.filter_sublist s.links)) hl
    · intro hmem
      rcases List.mem_map.mp hmem with ⟨p, hp, hpn⟩
      have hfilter := (List.mem_filter.mp hp).2
      have : (p.1 == an) = false := by
        cases hb : (p.1 == an) with
        | false => rfl
        | true => rw [hb] at hfilter; exact absurd hfilter (by simp)
      rw [show p.1 = an from hpn] at this
      simp at this

theorem WF_setActive {s s' : RegState} {mn v : String}
    (hwf : WF s) (h : set_active_version s mn v = .ok s') : WF s' := by
  unfold set_active_version at h
  rcases hfm : findModel s mn with _ | m0
  · rw [hfm] at h; simp at h
  rw [hfm] at h
  dsimp only at h
  by_cases hfv : (findVersion m0 v).isSome = true
  · rw [if_pos hfv] at h
    have hs' := (Except.ok.injEq _ _).mp h
    subst hs'
    obtain ⟨ha, hm, hv', hl⟩ := hwf
    have hname : ∀ x : MLModel,
        (({ x with explicitSet := true,
                   versions := x.versions.map
                     (fun mv => { mv with active := mv.version == v }) }) :
          MLModel).name = x.name := fun _ => rfl
    refine ⟨ha, by rw [names_updModel _ _ _ hname]; exact hm, ?_, hl⟩
    intro y hy
    rcases mem_updModel hy with ⟨x, hx, hxy⟩
    by_cases hxn : (x.name == mn) = true
    · have hx0 : findModel s mn = some x := findModel_eq_of_mem hm hx hxn
      rw [hfm] at hx0
      obtain rfl : m0 = x := (Option.some.injEq _ _).mp hx0
      obtain ⟨hne, hkeys, _⟩ := hv' m0 hx
      rcases Option.isSome_iff_exists.mp hfv with ⟨mv0, hmv0⟩
      rw [hxy, if_pos hxn]
      refine ⟨map_ne_nil _ hne, ?_, ?_⟩
      · dsimp only
        rw [map_version_map (fun mv => { mv with active := mv.version == v })
          (fun _ => rfl)]
        exact hkeys
      · dsimp only
        rw [List.countP_map]
        exact countP_key_eq_one (fun mv => mv.version) v m0.versions hkeys
          ⟨mv0, findVersion_mem hmv0, beq_iff_eq.mp (findVersion_some_key hmv0)⟩
    · rw [hxy, if_neg hxn]
      exact hv' x hx
  · rw [if_neg hfv] at h; simp at h

theorem WF_setReplicas {s s' : RegState} {mn v : String} {c : Int}
    (hwf : WF s) (h : set_replica_count s mn v c = .ok s') : WF s' := by
  unfold set_replica_count at h
  rcases hfm : findModel s mn with _ | m0
  · rw [hfm] at h; simp at h
  rw [hfm] at h
  dsimp only at h
  by_cases hfv : (findVersion m0 v).isSome = true
  · rw [if_pos hfv] at h
    by_cases hneg : c < 0
    · rw [if_pos hneg] at h; simp at h
    · rw [if_neg hneg] at h
      have hs' := (Except.ok.injEq _ _).mp h
      subst hs'
      obtain ⟨ha, hm, hv', hl⟩ := hwf
      have hname : ∀ x : MLModel,
          (({ x with versions := x.versions.map (fun mv =>
              if mv.version == v then { mv with replicas := c.toNat } else mv) }) :
            MLModel).name = x.name := fun _ => rfl
      have hkey : ∀ mv : ModelVersion,
          ((if mv.version == v then { mv with replicas := c.toNat } else mv) :
            ModelVersion).version = mv.version := by
        intro mv; split <;> rfl
      have hact : ∀ mv : ModelVersion,
          ((if mv.version == v then { mv with replicas := c.toNat } else mv) :
            ModelVersion).active = mv.active := by
        intro mv; split <;> rfl
      refine ⟨ha, by rw [names_updModel _ _ _ hname]; exact hm, ?_, hl⟩
      intro y hy
      rcases mem_updModel hy with ⟨x, hx, hxy⟩
      by_cases hxn : (x.name == mn) = true
      · obtain ⟨hne, hkeys, hcnt⟩ := hv' x hx
        rw [hxy, if_pos hxn]
        refine ⟨map_ne_nil _ hne, ?_, ?_⟩
        · dsimp only
          rw [map_version_map _ hkey]
          exact hkeys
        · dsimp only
          rw [List.countP_map]
          have hcong : List.countP ((fun mv => mv.active) ∘ (fun mv =>
              if mv.version == v then { mv with replicas := c.toNat } else mv))
                x.versions = List.countP (fun mv => mv.active) x.versions :=
            List.countP_congr (fun mv _ => by
              simp only [Function.comp_apply, hact mv])
          rw [hcong]
          exact hcnt
      · rw [hxy, if_neg hxn]
        exact hv' x hx
  · rw [if_neg hfv] at h; simp at h

/-- Every administrative operation preserves the Registry invariant. -/
theorem WF_applyOp {s s' : RegState} {op : RegOp}
    (hwf : WF s) (h : applyOp s op = .ok s') : WF s' := by
  cases op with
  | regApp n t d slo => exact WF_register hwf h
  | deploy mn v t a => exact WF_deploy hwf h
  | link a m => exact WF_link hwf h
  | setActive m v => exact WF_setActive hwf h
  | setReplicas m v c => exact WF_setReplicas hwf h

theorem find?_filter_of_imp {α : Type} (p q : α → Bool)
    (h : ∀ x, p x = true → q x = true) :
    ∀ l : List α, (l.filter q).find? p = l.find? p := by
  intro l
  induction l with
  | nil => rfl
  | cons a t ih =>
      cases hq : q a with
      | true =>
          cases hp : p a with
          | true => simp [List.filter_cons, hq, List.find?_cons, hp]
          | false => simp [List.filter_cons, hq, List.find?_cons, hp, ih]
      | false =>
          have hp : p a = false := by
            cases hpa : p a with
            | false => rfl
            | true => rw [h a hpa] at hq; cases hq
          simp [List.filter_cons, hq, List.find?_cons, hp, ih]

/-- Looking up a key in a link list where the entry for `a2` has just been
replaced: the lookup finds the fresh pair for `a2` and is unchanged for
every other key. -/
theorem find?_fst_replace (l : List (String × String)) (a2 m2 an : String) :
    ((l.filter (fun p => !(p.1 == a2))) ++ [(a2, m2)]).find? (fun p => p.1 == an) =
      if an = a2 then some (a2, m2) else l.find? (fun p => p.1 == an) := by
  by_cases h : an = a2
  · subst h
    rw [List.find?_append]
    have hnone : (l.filter (fun p => !(p.1 == an))).find? (fun p => p.1 == an)
        = none := by
      apply List.find?_eq_none.mpr
      intro x hx hpx
      have hfl := (List.mem_filter.mp hx).2
      rw [hpx] at hfl
      exact absurd hfl (by simp)
    rw [hnone, if_pos rfl]
    simp [List.find?_cons]
  · rw [if_neg h, List.find?_append]
    rw [find?_filter_of_imp (fun p => p.1 == an) (fun p => !(p.1 == a2)) ?imp l]
    case imp =>
      intro x hx
      have hxan : x.1 = an := beq_iff_eq.mp hx
      have : (x.1 == a2) = false := by
        simp [beq_iff_eq, hxan]
        intro hc
        exact h hc
      simp [this]
    cases hf : l.find? (fun p => p.1 == an) with
    | some pr => simp
    | none =>
        have : ((a2, m2).1 == an) = false := by
          simp [beq_iff_eq]
          intro hc
          exact h hc.symm
        simp [List.find?_cons, this]

/-- The links component after a successful operation: unchanged, or — for a
`link` — the entry for the linked application atomically replaced. -/
theorem links_applyOp {s s' : RegState} {op : RegOp}
    (h : applyOp s op = .ok s') :
    s'.links = s.links ∨
    ∃ a2 m2, s'.links = (s.links.filter (fun p => !(p.1 == a2))) ++ [(a2, m2)] := by
  cases op with
  | regApp n t d slo =>
      simp only [applyOp] at h
      unfold register_application at h
      split at h
      · simp at h
      · split at h
        · simp at h
        · left
          have hs' := (Except.ok.injEq _ _).mp h
          subst hs'
          rfl
  | deploy mn v t a =>
      simp only [applyOp] at h
      unfold deploy_model_version at h
      split at h
      · left
        have hs' := (Except.ok.injEq _ _).mp h
        subst hs'
        rfl
      · split at h
        · simp at h
        · split at h
          · simp at h
          · left
            have hs' := (Except.ok.injEq _ _).mp h
            subst hs'
            rfl
  | link a2 m2 =>
      simp only [applyOp] at h
      unfold link_model_to_app at h
      split at h
      · simp at h
      · simp at h
      · split at h
        · simp at h
        · right
          refine ⟨a2, m2, ?_⟩
          have hs' := (Except.ok.injEq _ _).mp h
          subst hs'
          rfl
  | setActive mn v =>
      simp only [applyOp] at h
      unfold set_active_version at h
      split at h
      · simp at h
      · split at h
        · left
          have hs' := (Except.ok.injEq _ _).mp h
          subst hs'
          rfl
        · simp at h
  | setReplicas mn v c =>
      simp only [applyOp] at h
      unfold set_replica_count at h
      split at h
      · simp at h
      · split at h
        · split at h
          · simp at h
          · left
            have hs' := (Except.ok.injEq _ _).mp h
            subst hs'
            rfl
        · simp at h

theorem findModel_updModel_ne (s : RegState) (n : String) (f : MLModel → MLModel)
    (hf : ∀ x, (f x).name = x.name) (k : String) (hk : k ≠ n) :
    findModel (updModel s n f) k = findModel s k := by
  rw [findModel_updModel s n f hf k]
  cases hfk : findModel s k with
  | none => rfl
  | some x =>
      rw [Option.map_some']
      have hxk : x.name = k := beq_iff_eq.mp (findModel_some_name hfk)
      rw [if_neg ?ne]
      case ne =>
        intro hc
        exact hk (by rw [← hxk]; exact beq_iff_eq.mp hc)

/-! ## Claims -/

/-- C6: `register_application(name, input_type, default_output, slo)` fails
with `AlreadyExists` when an application with that name already exists,
fails with `InvalidConfig` when the name is free but `slo ≤ 0`, and
otherwise succeeds, appending the new application (which is then found
under its name); it returns an error if and only if one of the two failure
conditions holds. -/
theorem C6_register_application_errors (s : RegState)
    (name inputType defaultOutput : String) (slo : Int) :
    ((findApp s name).isSome = true →
       register_application s name inputType defaultOutput slo = .error .alreadyExists) ∧
    ((findApp s name).isSome = false → slo ≤ 0 →
       register_application s name inputType defaultOutput slo = .error .invalidConfig) ∧
    ((findApp s name).isSome = false → 0 < slo →
       register_application s name inputType defaultOutput slo =
         .ok { s with apps := s.apps ++ [⟨name, inputType, defaultOutput, slo⟩] } ∧
       findApp { s with apps := s.apps ++ [⟨name, inputType, defaultOutput, slo⟩] } name =
         some ⟨name, inputType, defaultOutput, slo⟩) ∧
    ((register_application s name inputType defaultOutput slo).isOk = true ↔
       (findApp s name).isSome = false ∧ 0 < slo) := by
  refine ⟨?_, ?_, ?_, ?_⟩
  · intro h
    simp [register_application, h]
  · intro h hslo
    simp [register_application, h, hslo]
  · intro h hslo
    have hns : ¬ slo ≤ 0 := by omega
    refine ⟨by simp [register_application, h, hns], ?_⟩
    have hfind : findApp s name = none := by
      cases hf : findApp s name with
      | none => rfl
      | some a => rw [hf] at h; cases h
    unfold findApp at hfind ⊢
    dsimp only
    rw [List.find?_append, hfind]
    simp [List.find?_cons]
  · constructor
    · intro h
      by_cases h1 : (findApp s name).isSome = true
      · simp [register_application, h1, Except.isOk, Except.toBool] at h
      · by_cases h2 : slo ≤ 0
        · simp [register_application, eq_false_of_ne_true h1, h2, Except.isOk, Except.toBool] at h
        · exact ⟨eq_false_of_ne_true h1, by omega⟩
    · rintro ⟨h1, h2⟩
      have hns : ¬ slo ≤ 0 := by omega
      simp [register_application, h1, hns, Except.isOk, Except.toBool]

/-- C6 witness: registering "boston" on the empty Registry (fresh name,
positive SLO) succeeds and the application is recorded. -/
theorem C6_register_application_errors_witness :
    register_application initState "boston" "doubles" "-1.0" 100000 =
      .ok { initState with apps := [⟨"boston", "doubles", "-1.0", 100000⟩] } ∧
    findApp { initState with apps := [⟨"boston", "doubles", "-1.0", 100000⟩] } "boston" =
      some ⟨"boston", "doubles", "-1.0", 100000⟩ :=
  (C6_register_application_errors initState "boston" "doubles" "-1.0" 100000).2.2.1
    (by decide) (by decide)

/-- C7: `set_num_replicas` with the same count twice is the same as once:
a successful `set_replica_count s m v n = ok s1` is idempotent (the second
identical call returns `s1` unchanged), the recorded count is exactly `n`,
and after the Lifecycle Manager converges the healthy replica count is
exactly `n` — never more. -/
theorem C7_set_num_replicas_idempotent (s s1 : RegState) (m v : String) (n : Int)
    (h1 : set_replica_count s m v n = .ok s1) :
    set_replica_count s1 m v n = .ok s1 ∧
    getReplicas s1 m v = some n.toNat ∧
    getHealthy (converge s1) m v = some n.toNat := by
  unfold set_replica_count at h1
  rcases hfm : findModel s m with _ | m0
  · rw [hfm] at h1; cases h1
  rw [hfm] at h1
  dsimp only at h1
  rcases hfv : findVersion m0 v with _ | mv0
  · rw [hfv] at h1; simp at h1
  rw [hfv] at h1
  by_cases hneg : n < 0
  · simp [hneg] at h1
  rw [if_pos (by simp), if_neg hneg] at h1
  have hs1 : s1 = updModel s m (fun x =>
      { x with versions := x.versions.map (fun mv =>
          if mv.version == v then { mv with replicas := n.toNat } else mv) }) :=
    (Except.ok.injEq _ _).mp h1 |>.symm
  have hname : ∀ x : MLModel, (({ x with versions := x.versions.map (fun mv =>
      if mv.version == v then { mv with replicas := n.toNat } else mv) } : MLModel)).name
      = x.name := fun _ => rfl
  have hkey : ∀ mv : ModelVersion,
      ((if mv.version == v then { mv with replicas := n.toNat } else mv) :
        ModelVersion).version = mv.version := by
    intro mv; split <;> rfl
  have hm0name : (m0.name == m) = true := findModel_some_name hfm
  have hfm1 : findModel s1 m = some ({ m0 with versions := m0.versions.map (fun mv =>
      if mv.version == v then { mv with replicas := n.toNat } else mv) }) := by
    rw [hs1, findModel_updModel _ _ _ hname, hfm, Option.map_some', if_pos hm0name]
  have hmv0key : (mv0.version == v) = true := findVersion_some_key hfv
  have hfv1 : findVersion ({ m0 with versions := m0.versions.map (fun mv =>
      if mv.version == v then { mv with replicas := n.toNat } else mv) }) v =
      some ({ mv0 with replicas := n.toNat }) := by
    unfold findVersion at hfv ⊢
    dsimp only
    rw [findVersion_map_key _ hkey, hfv, Option.map_some', if_pos hmv0key]
  refine ⟨?_, ?_, ?_⟩
  · unfold set_replica_count
    rw [hfm1]
    dsimp only
    rw [hfv1]
    rw [if_pos (by simp), if_neg hneg]
    rw [hs1, updModel_updModel _ _ _ _ hname]
    congr 2
    funext x
    dsimp only
    congr 1
    rw [List.map_map]
    apply List.map_congr_left
    intro mv _
    dsimp only [Function.comp]
    by_cases hv : mv.version = v
    · simp [hv]
    · simp [hv]
  · unfold getReplicas
    rw [hfm1, Option.some_bind, hfv1]
    rfl
  · unfold getHealthy
    rw [findModel_converge, hfm1, Option.map_some', Option.some_bind]
    unfold findVersion
    rw [findVersion_map_key (fun mv => { mv with healthy := mv.replicas }) (fun _ => rfl)]
    rw [show ({ m0 with versions := m0.versions.map (fun mv =>
        if mv.version == v then { mv with replicas := n.toNat } else mv) } :
        MLModel).versions.find? (fun mv => mv.version == v) =
        some ({ mv0 with replicas := n.toNat }) from hfv1]
    rfl

/-- C7 witness: on a one-model Registry, setting 3 replicas twice equals
once, the record is 3, and convergence yields exactly 3 healthy. -/
theorem C7_set_num_replicas_idempotent_witness :
    set_replica_count ⟨[], [⟨"m", "doubles", false, [⟨"1", 7, 3, 1, true⟩]⟩], []⟩
        "m" "1" 3 =
      .ok ⟨[], [⟨"m", "doubles", false, [⟨"1", 7, 3, 1, true⟩]⟩], []⟩ ∧
    getReplicas ⟨[], [⟨"m", "doubles", false, [⟨"1", 7, 3, 1, true⟩]⟩], []⟩ "m" "1" =
      some 3 ∧
    getHealthy (converge ⟨[], [⟨"m", "doubles", false, [⟨"1", 7, 3, 1, true⟩]⟩], []⟩)
        "m" "1" = some 3 :=
  C7_set_num_replicas_idempotent
    ⟨[], [⟨"m", "doubles", false, [⟨"1", 7, 1, 1, true⟩]⟩], []⟩
    ⟨[], [⟨"m", "doubles", false, [⟨"1", 7, 3, 1, true⟩]⟩], []⟩
    "m" "1" 3 (by rfl)

/-- C8: `set_replica_count(model, version, count)` fails with `NotFound`
when the model or the (model, version) pair is absent, fails with
`InvalidConfig` when the pair exists but `count < 0`; on success the
Registry's recorded replica count is synchronously exactly `count`, and an
asynchronous scaling report (scaling in progress or partially failed, any
actual healthy count) changes only the healthy count, never the recorded
count. -/
theorem C8_set_replica_count_spec (s : RegState) (m v : String) (n : Int)
    (actual : Nat) :
    (findModel s m = none → set_replica_count s m v n = .error .notFound) ∧
    (∀ m0, findModel s m = some m0 → findVersion m0 v = none →
       set_replica_count s m v n = .error .notFound) ∧
    (∀ m0, findModel s m = some m0 → (findVersion m0 v).isSome = true → n < 0 →
       set_replica_count s m v n = .error .invalidConfig) ∧
    (∀ s', set_replica_count s m v n = .ok s' →
       getReplicas s' m v = some n.toNat ∧
       getReplicas (lifecycle_report s' m v actual) m v = some n.toNat ∧
       getHealthy (lifecycle_report s' m v actual) m v = some actual) := by
  refine ⟨?_, ?_, ?_, ?_⟩
  · intro h
    unfold set_replica_count
    rw [h]
  · intro m0 hfm hfv
    unfold set_replica_count
    rw [hfm]
    dsimp only
    rw [hfv]
    rfl
  · intro m0 hfm hfv hneg
    unfold set_replica_count
    rw [hfm]
    dsimp only
    rw [if_pos hfv, if_pos hneg]
  · intro s' hok
    unfold set_replica_count at hok
    rcases hfm : findModel s m with _ | m0
    · rw [hfm] at hok; cases hok
    rw [hfm] at hok
    dsimp only at hok
    rcases hfv : findVersion m0 v with _ | mv0
    · rw [hfv] at hok; simp at hok
    rw [hfv] at hok
    by_cases hneg : n < 0
    · simp [hneg] at hok
    rw [if_pos (by simp), if_neg hneg] at hok
    have hmv0key : (mv0.version == v) = true := findVersion_some_key hfv
    have hs' : s' = updModel s m (fun x =>
        { x with versions := x.versions.map (fun mv =>
            if mv.version == v then { mv with replicas := n.toNat } else mv) }) :=
      ((Except.ok.injEq _ _).mp hok).symm
    have hrepkey : ∀ mv : ModelVersion,
        ((if mv.version == v then { mv with replicas := n.toNat } else mv) :
          ModelVersion).version = mv.version := by
      intro mv; split <;> rfl
    have h1 := find_updVersions s m
      (fun mv => if mv.version == v then { mv with replicas := n.toNat } else mv)
      hrepkey hfm v
    have hfm1 : findModel s' m = some ({ m0 with versions := m0.versions.map (fun mv =>
        if mv.version == v then { mv with replicas := n.toNat } else mv) }) := by
      rw [hs']; exact h1.1
    have hfv1 : findVersion ({ m0 with versions := m0.versions.map (fun mv =>
        if mv.version == v then { mv with replicas := n.toNat } else mv) }) v =
        some ({ mv0 with replicas := n.toNat }) := by
      rw [h1.2, hfv, Option.map_some', if_pos hmv0key]
    have hhealkey : ∀ mv : ModelVersion,
        ((if mv.version == v then { mv with healthy := actual } else mv) :
          ModelVersion).version = mv.version := by
      intro mv; split <;> rfl
    have h2 := find_updVersions s' m
      (fun mv => if mv.version == v then { mv with healthy := actual } else mv)
      hhealkey hfm1 v
    have hrep : lifecycle_report s' m v actual = updModel s' m (fun x =>
        { x with versions := x.versions.map (fun mv =>
            if mv.version == v then { mv with healthy := actual } else mv) }) := rfl
    refine ⟨?_, ?_, ?_⟩
    · unfold getReplicas
      rw [hfm1, Option.some_bind, hfv1]
      rfl
    · unfold getReplicas
      rw [hrep, h2.1, Option.some_bind, h2.2, hfv1, Option.map_some', Option.map_some']
      rw [if_pos (show (({ mv0 with replicas := n.toNat } : ModelVersion).version == v)
        = true from hmv0key)]
    · unfold getHealthy
      rw [hrep, h2.1, Option.some_bind, h2.2, hfv1, Option.map_some', Option.map_some']
      rw [if_pos (show (({ mv0 with replicas := n.toNat } : ModelVersion).version == v)
        = true from hmv0key)]

/-- C8 witness: on a one-model Registry, setting 5 replicas records 5, and
a scaling report of only 2 healthy replicas (partial failure) leaves the
recorded count at 5 while the healthy count shows 2. -/
theorem C8_set_replica_count_spec_witness :
    getReplicas ⟨[], [⟨"m", "doubles", false, [⟨"1", 7, 5, 1, true⟩]⟩], []⟩ "m" "1" =
      some 5 ∧
    getReplicas (lifecycle_report
        ⟨[], [⟨"m", "doubles", false, [⟨"1", 7, 5, 1, true⟩]⟩], []⟩ "m" "1" 2) "m" "1" =
      some 5 ∧
    getHealthy (lifecycle_report
        ⟨[], [⟨"m", "doubles", false, [⟨"1", 7, 5, 1, true⟩]⟩], []⟩ "m" "1" 2) "m" "1" =
      some 2 :=
  (C8_set_replica_count_spec
      ⟨[], [⟨"m", "doubles", false, [⟨"1", 7, 1, 1, true⟩]⟩], []⟩ "m" "1" 5 2).2.2.2
    ⟨[], [⟨"m", "doubles", false, [⟨"1", 7, 5, 1, true⟩]⟩], []⟩ (by rfl)

/-- C9: the deployed `predict` closure returns one string per prediction:
its result has the same length as the model's prediction array for the
batch, and the i-th element is the decimal rendering `str` applied to the
i-th prediction; by its type the result is a list of strings, never of raw
numbers. -/
theorem C9_predict_renders_strings {α β : Type} (str : α → String)
    (modelPredict : β → List α) (inputs : β) :
    (predict str modelPredict inputs).length = (modelPredict inputs).length ∧
    ∀ i : Nat, (predict str modelPredict inputs)[i]? =
      ((modelPredict inputs)[i]?).map str := by
  refine ⟨by simp [predict], ?_⟩
  intro i
  simp [predict]

/-- C10: every application registration and model deployment the notebook
makes declares input type "doubles"; running the notebook's operation
sequence from the empty Registry succeeds, and at every `link` call the
application's registered input type equals the model's declared input
type, so the `TypeMismatch` branch of `link` is never reached. -/
theorem C10_notebook_types_aligned :
    (notebookOps.flatMap declaredTypes).all (fun t => t == "doubles") = true ∧
    linksTypeAligned initState notebookOps = true ∧
    (runOps initState notebookOps).isOk = true :=
  ⟨by decide, by decide, by decide⟩

/-- C4: in every well-formed Registry state reached by a successful
operation, every model (a model exists only once it has a deployed
version) has exactly one ModelVersion marked active; each of the five
administrative operations preserves the whole Registry invariant. -/
theorem C4_exactly_one_active (s s' : RegState) (op : RegOp)
    (hwf : WF s) (hok : applyOp s op = .ok s') :
    WF s' ∧
    ∀ m ∈ s'.models, m.versions ≠ [] ∧
      m.versions.countP (fun mv => mv.active) = 1 := by
  have hwf' := WF_applyOp hwf hok
  exact ⟨hwf', fun m hm =>
    ⟨(hwf'.2.2.1 m hm).1, (hwf'.2.2.1 m hm).2.2⟩⟩

/-- C4 witness: deploying a first version on the empty Registry preserves
the invariant; the resulting model has exactly one active version. -/
theorem C4_exactly_one_active_witness :
    (⟨"m", "doubles", false, [⟨"1", 5, 1, 1, true⟩]⟩ : MLModel).versions ≠ [] ∧
    (⟨"m", "doubles", false, [⟨"1", 5, 1, 1, true⟩]⟩ : MLModel).versions.countP
      (fun mv => mv.active) = 1 :=
  (C4_exactly_one_active initState
      ⟨[], [⟨"m", "doubles", false, [⟨"1", 5, 1, 1, true⟩]⟩], []⟩
      (.deploy "m" "1" "doubles" 5) (by decide) (by rfl)).2
    ⟨"m", "doubles", false, [⟨"1", 5, 1, 1, true⟩]⟩ (by simp)

/-- C5: in a well-formed state every application carries at most one link,
and every operation keeps it so; a successful `link` atomically leaves the
application linked to exactly the new model; and an application that is
linked stays linked across every successful operation — no observable
state has it linked to zero models (once first linked) or to two. -/
theorem C5_single_link_invariant (s s' : RegState) (op : RegOp)
    (an mn : String) (hwf : WF s) :
    (applyOp s op = .ok s' → ∀ a : String,
        (s'.links.filter (fun p => p.1 == a)).length ≤ 1) ∧
    (link_model_to_app s an mn = .ok s' → lookupLink s' an = some mn) ∧
    (applyOp s op = .ok s' → ∀ m0, lookupLink s an = some m0 →
        ∃ m1, lookupLink s' an = some m1) := by
  refine ⟨?_, ?_, ?_⟩
  · intro hok a
    have hwf' := WF_applyOp hwf hok
    exact length_filter_key_le_one (fun p => p.1) a s'.links hwf'.2.2.2
  · intro hok
    unfold link_model_to_app at hok
    split at hok
    · simp at hok
    · simp at hok
    · split at hok
      · simp at hok
      · have hs' := (Except.ok.injEq _ _).mp hok
        subst hs'
        unfold lookupLink
        dsimp only
        rw [find?_fst_replace, if_pos rfl]
        rfl
  · intro hok m0 hm0
    rcases links_applyOp hok with hsame | ⟨a2, m2, hrepl⟩
    · refine ⟨m0, ?_⟩
      unfold lookupLink at hm0 ⊢
      rw [hsame]
      exact hm0
    · unfold lookupLink at hm0 ⊢
      rw [hrepl, find?_fst_replace]
      by_cases han : an = a2
      · rw [if_pos han]
        exact ⟨m2, rfl⟩
      · rw [if_neg han]
        exact ⟨m0, hm0⟩

/-- C5 witness: linking "boston" to "tm" on a Registry holding both leaves
"boston" linked to exactly "tm". -/
theorem C5_single_link_invariant_witness :
    lookupLink ⟨[⟨"boston", "doubles", "-1.0", 100000⟩],
        [⟨"tm", "doubles", false, [⟨"1", 1, 1, 1, true⟩]⟩],
        [("boston", "tm")]⟩ "boston" = some "tm" :=
  (C5_single_link_invariant
      ⟨[⟨"boston", "doubles", "-1.0", 100000⟩],
        [⟨"tm", "doubles", false, [⟨"1", 1, 1, 1, true⟩]⟩], []⟩
      ⟨[⟨"boston", "doubles", "-1.0", 100000⟩],
        [⟨"tm", "doubles", false, [⟨"1", 1, 1, 1, true⟩]⟩],
        [("boston", "tm")]⟩
      (.link "boston" "tm") "boston" "tm" (by decide)).2.1 (by rfl)

/-- C1 (amended): a newly deployed version becomes the model's active
version exactly when no explicit `set_active_version` has been made for
that model — in particular when it is the model's first version; once an
explicit `set_active_version` has been made, deploy leaves the active
version unchanged; `register_application`, `link_model_to_app` and
`set_replica_count` never change any model's active version. -/
theorem C1_deploy_active_version (s : RegState) (mn v t : String) (art : Nat) :
    (findModel s mn = none → ∀ s', deploy_model_version s mn v t art = .ok s' →
       activeVersionId s' mn = some v) ∧
    (∀ m0, findModel s mn = some m0 → m0.explicitSet = false →
       ∀ s', deploy_model_version s mn v t art = .ok s' →
       activeVersionId s' mn = some v) ∧
    (∀ m0, findModel s mn = some m0 → m0.explicitSet = true →
       ∀ s', deploy_model_version s mn v t art = .ok s' →
       activeVersionId s' mn = activeVersionId s mn) ∧
    (∀ n2 t2 d2 : String, ∀ slo : Int, ∀ s',
       register_application s n2 t2 d2 slo = .ok s' →
       activeVersionId s' mn = activeVersionId s mn) ∧
    (∀ a2 m2 : String, ∀ s', link_model_to_app s a2 m2 = .ok s' →
       activeVersionId s' mn = activeVersionId s mn) ∧
    (∀ m2 v2 : String, ∀ c : Int, ∀ s', set_replica_count s m2 v2 c = .ok s' →
       activeVersionId s' mn = activeVersionId s mn) := by
  refine ⟨?_, ?_, ?_, ?_, ?_, ?_⟩
  · intro hfm s' hok
    unfold deploy_model_version at hok
    rw [hfm] at hok
    have hs' := (Except.ok.injEq _ _).mp hok
    subst hs'
    unfold activeVersionId findModel
    dsimp only
    rw [List.find?_append]
    unfold findModel at hfm
    rw [hfm]
    simp [List.find?_cons, activeEntry]
  · intro m0 hfm hexp s' hok
    unfold deploy_model_version at hok
    rw [hfm] at hok
    dsimp only at hok
    by_cases hfv : (findVersion m0 v).isSome = true
    · rw [if_pos hfv] at hok; simp at hok
    · rw [if_neg hfv] at hok
      by_cases ht : m0.inputType ≠ t
      · rw [if_pos ht] at hok; simp at hok
      · rw [if_neg ht] at hok
        have hs' := (Except.ok.injEq _ _).mp hok
        subst hs'
        have hname : ∀ x : MLModel,
            ((if x.explicitSet then
              { x with versions := x.versions ++ [⟨v, art, 1, 1, false⟩] }
            else
              { x with versions :=
                  x.versions.map (fun mv => { mv with active := false })
                    ++ [⟨v, art, 1, 1, true⟩] }) : MLModel).name = x.name := by
          intro x; split <;> rfl
        unfold activeVersionId
        rw [findModel_updModel s mn _ hname mn, hfm, Option.map_some',
          if_pos (findModel_some_name hfm), Option.some_bind]
        rw [if_neg (by rw [hexp]; exact Bool.false_ne_true)]
        unfold activeEntry
        dsimp only
        rw [List.find?_append]
        have hdeact : (m0.versions.map
            (fun mv => { mv with active := false })).find?
              (fun mv => mv.active) = none := by
          apply List.find?_eq_none.mpr
          intro x hx
          rcases List.mem_map.mp hx with ⟨mv, _, rfl⟩
          simp
        rw [hdeact]
        simp [List.find?_cons]
  · intro m0 hfm hexp s' hok
    unfold deploy_model_version at hok
    rw [hfm] at hok
    dsimp only at hok
    by_cases hfv : (findVersion m0 v).isSome = true
    · rw [if_pos hfv] at hok; simp at hok
    · rw [if_neg hfv] at hok
      by_cases ht : m0.inputType ≠ t
      · rw [if_pos ht] at hok; simp at hok
      · rw [if_neg ht] at hok
        have hs' := (Except.ok.injEq _ _).mp hok
        subst hs'
        have hname : ∀ x : MLModel,
            ((if x.explicitSet then
              { x with versions := x.versions ++ [⟨v, art, 1, 1, false⟩] }
            else
              { x with versions :=
                  x.versions.map (fun mv => { mv with active := false })
                    ++ [⟨v, art, 1, 1, true⟩] }) : MLModel).name = x.name := by
          intro x; split <;> rfl
        unfold activeVersionId
        rw [findModel_updModel s mn _ hname mn, hfm, Option.map_some',
          if_pos (findModel_some_name hfm), Option.some_bind, Option.some_bind]
        rw [if_pos (by rw [hexp])]
        unfold activeEntry
        dsimp only
        rw [List.find?_append]
        cases hae : m0.versions.find? (fun mv => mv.active) with
        | some x => simp
        | none => simp [List.find?_cons]
  · intro n2 t2 d2 slo s' hok
    unfold register_application at hok
    split at hok
    · simp at hok
    · split at hok
      · simp at hok
      · have hs' := (Except.ok.injEq _ _).mp hok
        subst hs'
        rfl
  · intro a2 m2 s' hok
    unfold link_model_to_app at hok
    split at hok
    · simp at hok
    · simp at hok
    · split at hok
      · simp at hok
      · have hs' := (Except.ok.injEq _ _).mp hok
        subst hs'
        rfl
  · intro m2 v2 c s' hok
    unfold set_replica_count at hok
    split at hok
    · simp at hok
    · split at hok
      · split at hok
        · simp at hok
        · have hs' := (Except.ok.injEq _ _).mp hok
          subst hs'
          have hname : ∀ x : MLModel,
              (({ x with versions := x.versions.map (fun mv =>
                  if mv.version == v2 then { mv with replicas := c.toNat }
                  else mv) }) : MLModel).name = x.name := fun _ => rfl
          have hact : ∀ mv : ModelVersion,
              ((fun mv => mv.active)
                ((fun mv => if mv.version == v2 then
                    { mv with replicas := c.toNat } else mv) mv)) =
                ((fun mv => mv.active) mv) := by
            intro mv; dsimp only; split <;> rfl
          unfold activeVersionId
          rw [findModel_updModel s m2 _ hname mn]
          cases hfm2 : findModel s mn with
          | none => rfl
          | some x =>
              rw [Option.map_some', Option.some_bind, Option.some_bind]
              by_cases hxm : (x.name == m2) = true
              · rw [if_pos hxm]
                unfold activeEntry
                dsimp only
                rw [find?_map_pred _ (fun mv => mv.active) hact x.versions]
                cases hax : x.versions.find? (fun mv => mv.active) with
                | none => rfl
                | some y =>
                    rw [Option.map_some', Option.map_some', Option.map_some']
                    cases hyy : (y.version == v2) with
                    | true => simp [hyy]
                    | false => simp [hyy]
              · rw [if_neg hxm]
      · simp at hok

/-- C1 counterexample to the claim as stated: "forest-model" already has a
version ("1", active, no explicit set_active_version ever made), yet
deploying version "2" changes the active version from "1" to "2" without
any set_active_version call — matching the spec's own scenario where
forest-model v2 is auto-active and the notebook's "by default the query is
routed to the latest version". -/
theorem C1_deploy_active_version_counterexample :
    activeVersionId ⟨[], [⟨"forest-model", "doubles", false,
        [⟨"1", 2, 1, 1, true⟩]⟩], []⟩ "forest-model" = some "1" ∧
    deploy_model_version ⟨[], [⟨"forest-model", "doubles", false,
        [⟨"1", 2, 1, 1, true⟩]⟩], []⟩ "forest-model" "2" "doubles" 3 =
      .ok ⟨[], [⟨"forest-model", "doubles", false,
        [⟨"1", 2, 1, 1, false⟩, ⟨"2", 3, 1, 1, true⟩]⟩], []⟩ ∧
    activeVersionId ⟨[], [⟨"forest-model", "doubles", false,
        [⟨"1", 2, 1, 1, false⟩, ⟨"2", 3, 1, 1, true⟩]⟩], []⟩ "forest-model" =
      some "2" :=
  ⟨rfl, rfl, rfl⟩

/-- C1 witness: deploying the first version of a fresh model makes it the
active version. -/
theorem C1_deploy_active_version_witness :
    activeVersionId ⟨[], [⟨"m", "doubles", false, [⟨"1", 5, 1, 1, true⟩]⟩], []⟩
      "m" = some "1" :=
  (C1_deploy_active_version initState "m" "1" "doubles" 5).1 (by rfl)
    ⟨[], [⟨"m", "doubles", false, [⟨"1", 5, 1, 1, true⟩]⟩], []⟩ (by rfl)

/-- C2: rollback is a pure pointer swap: `set_active_version(m, v1)` after
`set_active_version(m, v2)` yields exactly the state of a direct
`set_active_version(m, v1)`; v2's ModelVersion entry keeps its deployment
artifact and can be made active again by a later `set_active_version(m,
v2)`; and if v1 was the active version originally, routing after the
rollback is identical (for every application) to routing then. -/
theorem C2_rollback_pointer_swap (s s2 s3 : RegState) (mn v1 v2 appName : String)
    (hwf : WF s)
    (h2 : set_active_version s mn v2 = .ok s2)
    (h3 : set_active_version s2 mn v1 = .ok s3) :
    set_active_version s mn v1 = .ok s3 ∧
    getArtifact s3 mn v2 = getArtifact s mn v2 ∧
    (∃ s4, set_active_version s3 mn v2 = .ok s4 ∧
       activeVersionId s4 mn = some v2) ∧
    (activeVersionId s mn = some v1 → route s3 appName = route s appName) := by
  unfold set_active_version at h2
  rcases hfm : findModel s mn with _ | m0
  · rw [hfm] at h2; simp at h2
  rw [hfm] at h2
  dsimp only at h2
  by_cases hfv2 : (findVersion m0 v2).isSome = true
  swap
  · rw [if_neg hfv2] at h2; simp at h2
  rw [if_pos hfv2] at h2
  have hs2 := (Except.ok.injEq _ _).mp h2
  subst hs2
  have hname2 : ∀ x : MLModel,
      (({ x with explicitSet := true,
                 versions := x.versions.map
                   (fun mv => { mv with active := mv.version == v2 }) }) :
        MLModel).name = x.name := fun _ => rfl
  have hname1 : ∀ x : MLModel,
      (({ x with explicitSet := true,
                 versions := x.versions.map
                   (fun mv => { mv with active := mv.version == v1 }) }) :
        MLModel).name = x.name := fun _ => rfl
  have hfvmap : ∀ va vb : String,
      findVersion ({ m0 with explicitSet := true,
                             versions := m0.versions.map
                               (fun mv => { mv with active := mv.version == va }) }) vb =
        (findVersion m0 vb).map (fun mv => { mv with active := mv.version == va }) := by
    intro va vb
    unfold findVersion
    dsimp only
    exact findVersion_map_key (fun mv => { mv with active := mv.version == va })
      (fun _ => rfl) m0.versions vb
  have hfm2 : findModel (updModel s mn (fun x =>
      { x with explicitSet := true,
               versions := x.versions.map
                 (fun mv => { mv with active := mv.version == v2 }) })) mn =
      some ({ m0 with explicitSet := true,
                      versions := m0.versions.map
                        (fun mv => { mv with active := mv.version == v2 }) }) := by
    rw [findModel_updModel s mn _ hname2 mn, hfm, Option.map_some',
      if_pos (findModel_some_name hfm)]
  unfold set_active_version at h3
  rw [hfm2] at h3
  dsimp only at h3
  by_cases hfv1' : (findVersion ({ m0 with explicitSet := true,
                                           versions := m0.versions.map
                                             (fun mv => { mv with active := mv.version == v2 }) }) v1).isSome = true
  swap
  · rw [if_neg hfv1'] at h3; simp at h3
  rw [if_pos hfv1'] at h3
  have hs3 := (Except.ok.injEq _ _).mp h3
  have hfv1 : (findVersion m0 v1).isSome = true := by
    rw [hfvmap v2 v1] at hfv1'
    cases hfo : findVersion m0 v1 with
    | none => rw [hfo] at hfv1'; simp at hfv1'
    | some x => rfl
  have hmapflag : ∀ (va vb : String) (vs : List ModelVersion),
      (vs.map (fun mv => { mv with active := mv.version == va })).map
        (fun mv => { mv with active := mv.version == vb }) =
      vs.map (fun mv => { mv with active := mv.version == vb }) := by
    intro va vb vs
    rw [List.map_map]
    exact List.map_congr_left (fun mv _ => rfl)
  have hcompstate : updModel (updModel s mn (fun x =>
      { x with explicitSet := true,
               versions := x.versions.map
                 (fun mv => { mv with active := mv.version == v2 }) })) mn
      (fun x => { x with explicitSet := true,
                         versions := x.versions.map
                           (fun mv => { mv with active := mv.version == v1 }) }) =
      updModel s mn (fun x =>
        { x with explicitSet := true,
                 versions := x.versions.map
                   (fun mv => { mv with active := mv.version == v1 }) }) := by
    rw [updModel_updModel s mn _ _ hname2]
    unfold updModel
    dsimp only
    congr 1
    apply List.map_congr_left
    intro x _
    by_cases hx : (x.name == mn) = true
    · rw [if_pos hx, if_pos hx]
      show ({ x with explicitSet := true,
                     versions := (x.versions.map
                         (fun mv => { mv with active := mv.version == v2 })).map
                       (fun mv => { mv with active := mv.version == v1 }) } : MLModel) =
           { x with explicitSet := true,
                    versions := x.versions.map
                      (fun mv => { mv with active := mv.version == v1 }) }
      rw [hmapflag v2 v1 x.versions]
    · rw [if_neg hx, if_neg hx]
  have hs3' : s3 = updModel s mn (fun x =>
      { x with explicitSet := true,
               versions := x.versions.map
                 (fun mv => { mv with active := mv.version == v1 }) }) :=
    hs3.symm.trans hcompstate
  have hfmu : findModel (updModel s mn (fun x =>
      { x with explicitSet := true,
               versions := x.versions.map
                 (fun mv => { mv with active := mv.version == v1 }) })) mn =
      some ({ m0 with explicitSet := true,
                      versions := m0.versions.map
                        (fun mv => { mv with active := mv.version == v1 }) }) := by
    rw [findModel_updModel s mn _ hname1 mn, hfm, Option.map_some',
      if_pos (findModel_some_name hfm)]
  have hkeys : (m0.versions.map (fun mv => mv.version)).Nodup :=
    (hwf.2.2.1 m0 (findModel_mem hfm)).2.1
  rcases Option.isSome_iff_exists.mp hfv2 with ⟨mv2, hmv2⟩
  have hmv2ver : mv2.version = v2 := beq_iff_eq.mp (findVersion_some_key hmv2)
  have hmv2mem : mv2 ∈ m0.versions := findVersion_mem hmv2
  refine ⟨?_, ?_, ?_, ?_⟩
  · unfold set_active_version
    rw [hfm]
    dsimp only
    rw [if_pos hfv1, hs3']
  · rw [hs3']
    unfold getArtifact
    rw [hfmu, hfm, Option.some_bind, Option.some_bind, hfvmap v1 v2]
    cases findVersion m0 v2 with
    | none => rfl
    | some mv => rfl
  · rw [hs3']
    refine ⟨updModel (updModel s mn (fun x =>
        { x with explicitSet := true,
                 versions := x.versions.map
                   (fun mv => { mv with active := mv.version == v1 }) })) mn
        (fun x => { x with explicitSet := true,
                           versions := x.versions.map
                             (fun mv => { mv with active := mv.version == v2 }) }), ?_, ?_⟩
    · unfold set_active_version
      rw [hfmu]
      dsimp only
      rw [if_pos ?fv]
      case fv =>
        rw [hfvmap v1 v2]
        cases hfo : findVersion m0 v2 with
        | none => rw [hfo] at hfv2; simp at hfv2
        | some x => rfl
    · have hmapswap : updModel (updModel s mn (fun x =>
          { x with explicitSet := true,
                   versions := x.versions.map
                     (fun mv => { mv with active := mv.version == v1 }) })) mn
          (fun x => { x with explicitSet := true,
                             versions := x.versions.map
                               (fun mv => { mv with active := mv.version == v2 }) }) =
          updModel s mn (fun x =>
            { x with explicitSet := true,
                     versions := x.versions.map
                       (fun mv => { mv with active := mv.version == v2 }) }) := by
        rw [updModel_updModel s mn _ _ hname1]
        unfold updModel
        dsimp only
        congr 1
        apply List.map_congr_left
        intro x _
        by_cases hx : (x.name == mn) = true
        · rw [if_pos hx, if_pos hx]
          show ({ x with explicitSet := true,
                         versions := (x.versions.map
                             (fun mv => { mv with active := mv.version == v1 })).map
                           (fun mv => { mv with active := mv.version == v2 }) } : MLModel) =
               { x with explicitSet := true,
                        versions := x.versions.map
                          (fun mv => { mv with active := mv.version == v2 }) }
          rw [hmapflag v1 v2 x.versions]
        · rw [if_neg hx, if_neg hx]
      rw [hmapswap]
      unfold activeVersionId
      rw [findModel_updModel s mn _ hname2 mn, hfm, Option.map_some',
        if_pos (findModel_some_name hfm), Option.some_bind]
      have hact : activeEntry ({ m0 with explicitSet := true,
                                         versions := m0.versions.map
                                           (fun mv => { mv with active := mv.version == v2 }) }) =
                                         some ({ mv2 with active := true }) := by
        unfold activeEntry
        dsimp only
        exact find?_active_setFlags v2 m0.versions hkeys mv2 hmv2mem hmv2ver
      rw [hact, Option.map_some']
      rw [show ({ mv2 with active := true } : ModelVersion).version = v2 from hmv2ver]
  · intro hact1
    rw [hs3']
    unfold activeVersionId at hact1
    rw [hfm, Option.some_bind] at hact1
    cases hae : activeEntry m0 with
    | none => rw [hae] at hact1; simp at hact1
    | some x =>
        rw [hae, Option.map_some'] at hact1
        have hxv : x.version = v1 := (Option.some.injEq _ _).mp hact1
        have hxmem : x ∈ m0.versions := by
          unfold activeEntry at hae
          exact List.mem_of_find?_eq_some hae
        have haef1 : activeEntry ({ m0 with explicitSet := true,
                                            versions := m0.versions.map
                                              (fun mv => { mv with active := mv.version == v1 }) }) =
                                            some ({ x with active := true }) := by
          unfold activeEntry
          dsimp only
          exact find?_active_setFlags v1 m0.versions hkeys x hxmem hxv
        unfold route
        rw [findApp_updModel, lookupLink_updModel]
        cases hfa : findApp s appName with
        | none => simp [hfa]
        | some a =>
            simp only [hfa]
            cases hll : lookupLink s appName with
            | none => simp
            | some mnl =>
                simp only [hll]
                by_cases hmn : mnl = mn
                · subst hmn
                  simp only [hfmu, hfm, haef1, hae]
                · rw [findModel_updModel_ne s mn _ hname1 mnl hmn]

/-- C2 witness: on a two-version model with v1 active, setting v2 then v1
equals setting v1 directly, and routing after the rollback matches the
original routing. -/
theorem C2_rollback_pointer_swap_witness :
    set_active_version ⟨[⟨"app", "doubles", "-1.0", 100⟩],
        [⟨"m", "doubles", false,
          [⟨"1", 10, 1, 1, true⟩, ⟨"2", 20, 1, 1, false⟩]⟩],
        [("app", "m")]⟩ "m" "1" =
      .ok ⟨[⟨"app", "doubles", "-1.0", 100⟩],
        [⟨"m", "doubles", true,
          [⟨"1", 10, 1, 1, true⟩, ⟨"2", 20, 1, 1, false⟩]⟩],
        [("app", "m")]⟩ ∧
    route ⟨[⟨"app", "doubles", "-1.0", 100⟩],
        [⟨"m", "doubles", true,
          [⟨"1", 10, 1, 1, true⟩, ⟨"2", 20, 1, 1, false⟩]⟩],
        [("app", "m")]⟩ "app" =
      route ⟨[⟨"app", "doubles", "-1.0", 100⟩],
        [⟨"m", "doubles", false,
          [⟨"1", 10, 1, 1, true⟩, ⟨"2", 20, 1, 1, false⟩]⟩],
        [("app", "m")]⟩ "app" := by
  have h := C2_rollback_pointer_swap
    ⟨[⟨"app", "doubles", "-1.0", 100⟩],
      [⟨"m", "doubles", false,
        [⟨"1", 10, 1, 1, true⟩, ⟨"2", 20, 1, 1, false⟩]⟩],
      [("app", "m")]⟩
    ⟨[⟨"app", "doubles", "-1.0", 100⟩],
      [⟨"m", "doubles", true,
        [⟨"1", 10, 1, 1, false⟩, ⟨"2", 20, 1, 1, true⟩]⟩],
      [("app", "m")]⟩
    ⟨[⟨"app", "doubles", "-1.0", 100⟩],
      [⟨"m", "doubles", true,
        [⟨"1", 10, 1, 1, true⟩, ⟨"2", 20, 1, 1, false⟩]⟩],
      [("app", "m")]⟩
    "m" "1" "2" "app" (by decide) (by rfl) (by rfl)
  exact ⟨h.1, h.2.2.2 (by rfl)⟩

/-- C3 (amended): a name with no registered application has no endpoint:
routing yields the unknown-application outcome (there exists no configured
default_output for it).  For a registered application the Router returns a
default-flagged fallback exactly when the application has no link, the
linked model is absent, the linked model has no active version, or the
active version has zero healthy replicas — and the fallback output is then
exactly the application's configured default_output. -/
theorem C3_router_default_fallback (s : RegState) (appName : String) :
    (findApp s appName = none → route s appName = .unknownApp) ∧
    (∀ a, findApp s appName = some a →
       (((route s appName).isFallback = true) ↔
         (lookupLink s appName = none ∨
          (∃ mnl, lookupLink s appName = some mnl ∧ findModel s mnl = none) ∨
          (∃ mnl m, lookupLink s appName = some mnl ∧ findModel s mnl = some m ∧
             activeEntry m = none) ∨
          (∃ mnl m mv, lookupLink s appName = some mnl ∧ findModel s mnl = some m ∧
             activeEntry m = some mv ∧ mv.healthy = 0))) ∧
       ((route s appName).isFallback = true →
          route s appName = .fallback a.defaultOutput)) := by
  constructor
  · intro h
    unfold route
    rw [h]
  · intro a ha
    cases hll : lookupLink s appName with
    | none =>
        have hr : route s appName = .fallback a.defaultOutput := by
          unfold route
          simp only [ha, hll]
        exact ⟨⟨fun _ => Or.inl rfl, fun _ => by rw [hr]; rfl⟩, fun _ => hr⟩
    | some mnl =>
        cases hfm : findModel s mnl with
        | none =>
            have hr : route s appName = .fallback a.defaultOutput := by
              unfold route
              simp only [ha, hll, hfm]
            exact ⟨⟨fun _ => Or.inr (Or.inl ⟨mnl, rfl, hfm⟩),
              fun _ => by rw [hr]; rfl⟩, fun _ => hr⟩
        | some m =>
            cases hae : activeEntry m with
            | none =>
                have hr : route s appName = .fallback a.defaultOutput := by
                  unfold route
                  simp only [ha, hll, hfm, hae]
                exact ⟨⟨fun _ => Or.inr (Or.inr (Or.inl ⟨mnl, m, rfl, hfm, hae⟩)),
                  fun _ => by rw [hr]; rfl⟩, fun _ => hr⟩
            | some mv =>
                by_cases hh : 1 ≤ mv.healthy
                · have hr : route s appName = .forwarded mnl mv.version mv.artifact := by
                    unfold route
                    simp only [ha, hll, hfm, hae]
                    rw [if_pos hh]
                  refine ⟨⟨?_, ?_⟩, ?_⟩
                  · intro hfb
                    rw [hr] at hfb
                    exact Bool.noConfusion hfb
                  · intro hrhs
                    exfalso
                    rcases hrhs with h1 | ⟨mnl2, h1, h2⟩ | ⟨mnl2, m2, h1, h2, h3⟩ |
                      ⟨mnl2, m2, mv2, h1, h2, h3, h4⟩
                    · cases h1
                    · obtain rfl := (Option.some.injEq _ _).mp h1
                      rw [hfm] at h2
                      cases h2
                    · obtain rfl := (Option.some.injEq _ _).mp h1
                      rw [hfm] at h2
                      obtain rfl := (Option.some.injEq _ _).mp h2
                      rw [hae] at h3
                      cases h3
                    · obtain rfl := (Option.some.injEq _ _).mp h1
                      rw [hfm] at h2
                      obtain rfl := (Option.some.injEq _ _).mp h2
                      rw [hae] at h3
                      obtain rfl := (Option.some.injEq _ _).mp h3
                      omega
                  · intro hfb
                    rw [hr] at hfb
                    exact Bool.noConfusion hfb
                · have hr : route s appName = .fallback a.defaultOutput := by
                    unfold route
                    simp only [ha, hll, hfm, hae]
                    rw [if_neg hh]
                  exact ⟨⟨fun _ => Or.inr (Or.inr (Or.inr
                    ⟨mnl, m, mv, rfl, hfm, hae, by omega⟩)),
                    fun _ => by rw [hr]; rfl⟩, fun _ => hr⟩

/-- C3 counterexample to the claim as stated: for an unregistered
application name there is no "configured default_output" to return; the
Router yields the unknown-application outcome, which is not a
default-flagged response, even though "the application is unknown"
holds. -/
theorem C3_router_default_fallback_counterexample :
    findApp initState "boston" = none ∧
    route initState "boston" = .unknownApp ∧
    (route initState "boston").isFallback = false :=
  ⟨rfl, rfl, rfl⟩

/-- C3 witness: registering "boston" with default_output "-1.0" and routing
before any model is linked yields exactly "-1.0" as the default-flagged
fallback. -/
theorem C3_router_default_fallback_witness :
    route ⟨[⟨"boston", "doubles", "-1.0", 100000⟩], [], []⟩ "boston" =
      .fallback "-1.0" :=
  ((C3_router_default_fallback
      ⟨[⟨"boston", "doubles", "-1.0", 100000⟩], [], []⟩ "boston").2
    ⟨"boston", "doubles", "-1.0", 100000⟩ (by rfl)).2 (by rfl)

end Clipper
